import Mathlib

/-
Verification of the counting-and-ranking engine of vocab_count.c (GloVe unigram
counter).  Tokens are modelled as the byte lists of C strings (the bytes before
the terminating 0 byte), machine integers as Nat / Int, the hash table as a map
from bucket index to chain, and the two qsort calls as comparator-sorted
permutations (mergeSort is the deterministic representative of the qsort
outcome: qsort only guarantees the result is ordered by the comparator).
-/

namespace VocabCount

/-- MAX_STRING_LENGTH from vocab_count.c. -/
def MAX_STRING_LENGTH : Nat := 1000

/-- TSIZE: the fixed bucket count of the hash table. -/
def TSIZE : Nat := 1048576

/-- SEED: the fixed hash seed. -/
def SEED : Nat := 1159241

/-- scmp from vocab_count.c: advance while the first string's byte is nonzero and
equal to the second string's byte, then return the difference of the current
bytes.  A list models the bytes of a C string before its terminating 0 byte, so
the empty list stands for the empty string. -/
def scmp : List Nat → List Nat → Int
  | [], [] => 0
  | [], b :: _ => -(b : Int)
  | a :: _, [] => (a : Int)
  | a :: s1, b :: s2 => if a ≠ 0 ∧ a = b then scmp s1 s2 else (a : Int) - (b : Int)

/-- A word with its occurrence count: the VOCAB record of the ranking phase, and a
HASHREC of the counting phase without its chain pointer. -/
structure VOCAB where
  word : List Nat
  count : Nat
deriving DecidableEq

/-- CompareVocabTie: count descending, ties broken by scmp on the words. -/
def CompareVocabTie (a b : VOCAB) : Int :=
  if (b.count : Int) - (a.count : Int) ≠ 0 then
    (if 0 < (b.count : Int) - (a.count : Int) then 1 else -1)
  else scmp a.word b.word

/-- CompareVocab: count descending, no tie-break. -/
def CompareVocab (a b : VOCAB) : Int :=
  if (b.count : Int) - (a.count : Int) ≠ 0 then
    (if 0 < (b.count : Int) - (a.count : Int) then 1 else -1)
  else 0

/-- bitwisehash: rolling bitwise mix of the word bytes in 32-bit unsigned
arithmetic, masked to 31 bits and reduced modulo the bucket count. -/
def bitwisehash (word : List Nat) (tsize : Nat) (seed : Nat) : Nat :=
  ((word.foldl (fun h c => h ^^^ ((h * 32 + c + h / 4) % 4294967296)) seed)
    &&& 0x7fffffff) % tsize

/-- HASHFN applied with the fixed table size and seed. -/
def hashfn (w : List Nat) : Nat := bitwisehash w TSIZE SEED

/-- A bucket chain; the list head is the chain head. -/
abbrev Chain := List VOCAB

/-- The search loop of hashinsert: the first record of the chain whose word is
scmp-equal to the probe word. -/
def chainFind : Chain → List Nat → Option VOCAB
  | [], _ => none
  | e :: rest, w => if scmp e.word w = 0 then some e else chainFind rest w

/-- Unlinking step of the move-to-front branch: drop the first record whose word
is scmp-equal to the probe word. -/
def chainRemoveFirst : Chain → List Nat → Chain
  | [], _ => []
  | e :: rest, w => if scmp e.word w = 0 then rest else e :: chainRemoveFirst rest w

/-- Effect of hashinsert on the probed bucket chain: when no record matches, a
fresh record with count 1 is appended at the end of the chain; when the first
matching record is the chain head it is incremented in place; otherwise it is
incremented, unlinked, and relinked at the chain head (move-to-front). -/
def chainInsert (chain : Chain) (w : List Nat) : Chain :=
  match chainFind chain w with
  | none => chain ++ [⟨w, 1⟩]
  | some e =>
    match chain with
    | [] => [⟨e.word, e.count + 1⟩]
    | e0 :: rest =>
      if scmp e0.word w = 0 then ⟨e.word, e.count + 1⟩ :: rest
      else ⟨e.word, e.count + 1⟩ :: chainRemoveFirst (e0 :: rest) w

/-- The hash table: bucket index to chain. -/
abbrev HashTable := Nat → Chain

/-- inithashtable: every bucket empty. -/
def inithashtable : HashTable := fun _ => []

/-- hashinsert: search-or-insert the word, touching only its hash bucket. -/
def hashinsert (ht : HashTable) (w : List Nat) : HashTable :=
  fun i => if i = hashfn w then chainInsert (ht i) w else ht i

/-- The counting loop: insert every token of the stream in order. -/
def insertAll (ts : List (List Nat)) : HashTable :=
  ts.foldl hashinsert inithashtable

/-- The whitespace set of the scanf s-conversion (isspace). -/
def isWS (b : Nat) : Bool :=
  b == 32 || b == 9 || b == 10 || b == 11 || b == 12 || b == 13

/-- One fscanf(fid, format, str) read with format built from MAX_STRING_LENGTH:
skip whitespace, then read up to MAX_STRING_LENGTH non-whitespace bytes into the
token; bytes beyond the field width stay in the stream for the next read. -/
def readToken (s : List Nat) : Option (List Nat × List Nat) :=
  match s.dropWhile isWS with
  | [] => none
  | b :: s2 =>
    let t := ((b :: s2).takeWhile (fun c => !isWS c)).take MAX_STRING_LENGTH
    some (t, (b :: s2).drop t.length)

/-- Fuelled token reader behind the while(fscanf(...) != EOF) loop. -/
def tokenizeAux : Nat → List Nat → List (List Nat)
  | 0, _ => []
  | fuel + 1, s =>
    match readToken s with
    | none => []
    | some (t, rest) => t :: tokenizeAux fuel rest

/-- The token stream the counting loop reads from the input bytes. -/
def tokenize (s : List Nat) : List (List Nat) := tokenizeAux s.length s

/-- The migration loop of get_counts: bucket 0 up to TSIZE - 1, each chain from
head to tail, copying word and count of every record into the array. -/
def migrate (ht : HashTable) : List VOCAB :=
  ((List.range TSIZE).map ht).flatten

/-- Sum of the counts of all records held by the counting table. -/
def totalCount (ht : HashTable) : Nat :=
  ∑ i ∈ Finset.range TSIZE, ((ht i).map VOCAB.count).sum

/-- qsort with CompareVocab, modelled by the comparator-sorted permutation that
mergeSort produces. -/
def sortVocab (l : List VOCAB) : List VOCAB :=
  l.mergeSort (fun a b => decide (CompareVocab a b ≤ 0))

/-- qsort with CompareVocabTie. -/
def sortVocabTie (l : List VOCAB) : List VOCAB :=
  l.mergeSort (fun a b => decide (CompareVocabTie a b ≤ 0))

/-- The first max_vocab records of the array after the sorting phase of
get_counts: when 0 < max_vocab < j the whole array is first sorted by
CompareVocab (no tie-break) and the emission window is its first max_vocab
records, re-sorted by CompareVocabTie; otherwise max_vocab is set to j and the
whole array is sorted by CompareVocabTie. -/
def rankBase (entries : List VOCAB) (mv : Int) : List VOCAB :=
  if 0 < mv ∧ mv < (entries.length : Int) then
    sortVocabTie ((sortVocab entries).take mv.toNat)
  else sortVocabTie entries

/-- The emission loop: walk the ranked records from the front and stop at the
first one whose count is strictly below min_count. -/
def emitLoop (l : List VOCAB) (mc : Int) : List VOCAB :=
  l.takeWhile (fun e => decide (mc ≤ (e.count : Int)))

/-- The records get_counts writes to the output stream. -/
def rank (entries : List VOCAB) (mv mc : Int) : List VOCAB :=
  emitLoop (rankBase entries mv) mc

/-- The effective cutoff size M of the ranking phase. -/
def effectiveM (mv : Int) (N : Nat) : Nat :=
  if 0 < mv ∧ mv < (N : Int) then mv.toNat else N

/-- The array the counting phase hands to the ranking phase. -/
def vocabArray (input : List Nat) : List VOCAB :=
  migrate (insertAll (tokenize input))

/-- The full pipeline of get_counts: tokenize, count, migrate, rank. -/
def vocabOutput (input : List Nat) (mv mc : Int) : List VOCAB :=
  rank (vocabArray input) mv mc

/-- Decimal digit bytes of a count, as fprintf prints it. -/
def decimalBytes (n : Nat) : List Nat := (Nat.toDigits 10 n).map Char.toNat

/-- The byte stream written to the output file: one line per record, the word,
a space, the decimal count, a newline. -/
def outputBytes (l : List VOCAB) : List Nat :=
  (l.map (fun e => e.word ++ [32] ++ decimalBytes e.count ++ [10])).flatten

/-- The diagnostic messages get_counts can write to the log stream. -/
inductive LogMsg where
  | building : LogMsg
  | processedStart : LogMsg
  | progress : Nat → LogMsg
  | processedEnd : Nat → LogMsg
  | countedUnique : Nat → LogMsg
  | truncatedMinCount : Int → LogMsg
  | truncatedSize : Nat → LogMsg
  | usingSize : Nat → LogMsg
deriving DecidableEq

/-- The diagnostic stream of one get_counts run.  Every message except the
banner and the final size report is guarded by the verbosity level; the
min-count message is printed exactly when the emission loop breaks early, and
the size message exactly when the loop ran through all M records with M below
the number of distinct words. -/
def getCountsLog (v : Int) (input : List Nat) (mv mc : Int) : List LogMsg :=
  let T := (tokenize input).length
  let entries := vocabArray input
  let N := entries.length
  let M := effectiveM mv N
  let base := rankBase entries mv
  let out := emitLoop base mc
  [LogMsg.building]
  ++ (if 1 < v then [LogMsg.processedStart] else [])
  ++ (if 1 < v then
        (((List.range T).map (fun k => k + 1)).filter
          (fun i => i % 100000 == 0)).map LogMsg.progress
      else [])
  ++ (if 1 < v then [LogMsg.processedEnd T] else [])
  ++ (if 1 < v then [LogMsg.countedUnique N] else [])
  ++ (if 0 < v ∧ out.length < base.length then [LogMsg.truncatedMinCount mc] else [])
  ++ (if 0 < v ∧ out.length = M ∧ M < N then [LogMsg.truncatedSize M] else [])
  ++ [LogMsg.usingSize out.length]

/-- One get_counts run: the vocabulary records written to the output stream and
the diagnostic messages written to the log stream. -/
def getCountsRun (v : Int) (input : List Nat) (mv mc : Int) :
    List VOCAB × List LogMsg :=
  (vocabOutput input mv mc, getCountsLog v input mv mc)

/-- Outcome of a whole vocab_count call. -/
inductive RunOutcome where
  | ok : List VOCAB → List LogMsg → RunOutcome
  | exitFailure : RunOutcome
  | undefinedAccess : RunOutcome
deriving DecidableEq

/-- vocab_count: the log file is opened first and a failure there calls exit(1)
before any processing.  get_counts then uses the corpus stream and the output
stream without any check: when either fopen failed, the run reaches fscanf,
fprintf or fclose on a null stream, for which the code defines no behavior;
this is modelled by the undefinedAccess outcome. -/
def vocab_count (logOk fidOk foutOk : Bool) (v : Int) (input : List Nat)
    (mv mc : Int) : RunOutcome :=
  if !logOk then RunOutcome.exitFailure
  else if !fidOk then RunOutcome.undefinedAccess
  else if !foutOk then RunOutcome.undefinedAccess
  else RunOutcome.ok (vocabOutput input mv mc) (getCountsLog v input mv mc)

/-- Modelled from the spec: the plain associative map that section 4.1 compares
the move-to-front table against (move-to-front is called an internal detail
with no effect on final counts).  Insert-or-increment keyed by the token value,
with no chain reordering. -/
def specInsert : List VOCAB → List Nat → List VOCAB
  | [], w => [⟨w, 1⟩]
  | e :: rest, w =>
    if e.word = w then ⟨e.word, e.count + 1⟩ :: rest else e :: specInsert rest w

/-- Modelled from the spec: counts of a token stream in the plain associative
map. -/
def specCounts (ts : List (List Nat)) : List VOCAB := ts.foldl specInsert []

/-- Lookup in the plain associative map. -/
def specLookup (l : List VOCAB) (w : List Nat) : Option VOCAB :=
  l.find? (fun e => decide (e.word = w))

/-- Lookup in the counting table: the search loop of hashinsert without the
insertion. -/
def tableLookup (ht : HashTable) (w : List Nat) : Option VOCAB :=
  chainFind (ht (hashfn w)) w

/-- Fuelled splitting of a byte run into consecutive MAX_STRING_LENGTH pieces. -/
def chunksAux : Nat → List Nat → List (List Nat)
  | 0, _ => []
  | fuel + 1, s =>
    match s with
    | [] => []
    | b :: s2 => (b :: s2).take MAX_STRING_LENGTH
        :: chunksAux fuel ((b :: s2).drop MAX_STRING_LENGTH)

/-- The consecutive MAX_STRING_LENGTH-byte pieces of a byte run. -/
def chunks (s : List Nat) : List (List Nat) := chunksAux s.length s

/-- A wellformed token, as fscanf produces it: nonempty, bytes nonzero (a C
string holds no embedded 0 byte) and below 256. -/
def validToken (w : List Nat) : Prop := w ≠ [] ∧ ∀ b ∈ w, 0 < b ∧ b < 256

/-- Wellformed input bytes: nonzero and below 256. -/
def validInput (s : List Nat) : Prop := ∀ b ∈ s, 0 < b ∧ b < 256

instance decValidToken (w : List Nat) : Decidable (validToken w) := by
  unfold validToken
  infer_instance

instance decValidInput (s : List Nat) : Decidable (validInput s) := by
  unfold validInput
  infer_instance

/-- Invariant of the counting table: every record sits in the bucket its word
hashes to, has a wellformed word and a count of at least 1, and no two records
of one chain share a word. -/
def tableWF (ht : HashTable) : Prop :=
  ∀ i, (∀ e ∈ ht i, validToken e.word ∧ hashfn e.word = i ∧ 1 ≤ e.count) ∧
    (ht i).Pairwise (fun a b => a.word ≠ b.word)

theorem scmp_nil_left (y : List Nat) : scmp [] y ≤ 0 := by
  cases y with
  | nil => simp [scmp]
  | cons b t => simp [scmp]

theorem scmp_self {w : List Nat} (h : ∀ b ∈ w, 0 < b) : scmp w w = 0 := by
  induction w with
  | nil => rfl
  | cons a t ih =>
    have ha : a ≠ 0 := Nat.pos_iff_ne_zero.mp (h a (List.mem_cons_self a t))
    have he : scmp (a :: t) (a :: t) = scmp t t := by simp [scmp, ha]
    rw [he]
    exact ih fun b hb => h b (List.mem_cons_of_mem a hb)

theorem scmp_eq_zero_iff {x y : List Nat} (hx : ∀ b ∈ x, 0 < b)
    (hy : ∀ b ∈ y, 0 < b) : scmp x y = 0 ↔ x = y := by
  induction x generalizing y with
  | nil =>
    cases y with
    | nil => simp [scmp]
    | cons b t =>
      have hb : 0 < b := hy b (List.mem_cons_self b t)
      simp [scmp]
      omega
  | cons a s ih =>
    cases y with
    | nil =>
      have ha : 0 < a := hx a (List.mem_cons_self a s)
      simp [scmp]
      omega
    | cons b t =>
      have ha : a ≠ 0 := Nat.pos_iff_ne_zero.mp (hx a (List.mem_cons_self a s))
      by_cases hab : a = b
      · subst hab
        have he : scmp (a :: s) (a :: t) = scmp s t := by simp [scmp, ha]
        rw [he, ih (fun c hc => hx c (List.mem_cons_of_mem a hc))
          (fun c hc => hy c (List.mem_cons_of_mem a hc))]
        simp
      · have hcond : ¬ (a ≠ 0 ∧ a = b) := by tauto
        have he : scmp (a :: s) (b :: t) = (a : Int) - b := by
          simp only [scmp, if_neg hcond]
        rw [he]
        constructor
        · intro h; exact absurd (by omega : a = b) hab
        · intro h; cases h; exact absurd rfl hab

theorem scmp_neg (x y : List Nat) : scmp x y = - scmp y x := by
  induction x generalizing y with
  | nil => cases y <;> simp [scmp]
  | cons a s ih =>
    cases y with
    | nil => simp [scmp]
    | cons b t =>
      by_cases hab : a ≠ 0 ∧ a = b
      · have hba : b ≠ 0 ∧ b = a := by omega
        simp only [scmp, if_pos hab, if_pos hba]
        exact ih t
      · have hba : ¬ (b ≠ 0 ∧ b = a) := by omega
        simp only [scmp, if_neg hab, if_neg hba]
        omega

theorem scmp_le_trans {x y z : List Nat} (h1 : scmp x y ≤ 0) (h2 : scmp y z ≤ 0) :
    scmp x z ≤ 0 := by
  induction x generalizing y z with
  | nil => exact scmp_nil_left z
  | cons a s ih =>
    cases y with
    | nil =>
      have ha : (a : Int) ≤ 0 := by simpa [scmp] using h1
      have ha0 : a = 0 := by omega
      cases z with
      | nil => simp [scmp, ha0]
      | cons c u => simp [scmp, ha0]
    | cons b t =>
      cases z with
      | nil =>
        have hb : (b : Int) ≤ 0 := by simpa [scmp] using h2
        have hb0 : b = 0 := by omega
        have : ¬ (a ≠ 0 ∧ a = b) := by omega
        have ha : (a : Int) - b ≤ 0 := by simpa [scmp, this] using h1
        simp [scmp]
        omega
      | cons c u =>
        by_cases hab : a ≠ 0 ∧ a = b
        · by_cases hbc : b ≠ 0 ∧ b = c
          · have hac : a ≠ 0 ∧ a = c := by omega
            simp only [scmp, if_pos hab] at h1
            simp only [scmp, if_pos hbc] at h2
            simp only [scmp, if_pos hac]
            exact ih h1 h2
          · simp only [scmp, if_neg hbc] at h2
            have hac : ¬ (a ≠ 0 ∧ a = c) := by omega
            simp only [scmp, if_neg hac]
            omega
        · simp only [scmp, if_neg hab] at h1
          by_cases ha0 : a = 0
          · have hac : ¬ (a ≠ 0 ∧ a = c) := by omega
            simp only [scmp, if_neg hac]
            omega
          · have hab2 : (a : Int) < b := by omega
            by_cases hbc : b ≠ 0 ∧ b = c
            · have hac : ¬ (a ≠ 0 ∧ a = c) := by omega
              simp only [scmp, if_neg hac]
              omega
            · simp only [scmp, if_neg hbc] at h2
              have hac : ¬ (a ≠ 0 ∧ a = c) := by omega
              simp only [scmp, if_neg hac]
              omega

theorem scmp_lt_iff_lex {x y : List Nat} (hx : ∀ b ∈ x, 0 < b)
    (hy : ∀ b ∈ y, 0 < b) :
    scmp x y < 0 ↔ List.Lex (fun a b : Nat => a < b) x y := by
  induction x generalizing y with
  | nil =>
    cases y with
    | nil => simp [scmp]
    | cons b t =>
      have hb : 0 < b := hy b (List.mem_cons_self b t)
      simp only [scmp]
      constructor
      · intro _; exact List.Lex.nil
      · intro _; omega
  | cons a s ih =>
    cases y with
    | nil =>
      have ha : 0 < a := hx a (List.mem_cons_self a s)
      simp only [scmp]
      constructor
      · omega
      · intro h; cases h
    | cons b t =>
      have ha : a ≠ 0 := Nat.pos_iff_ne_zero.mp (hx a (List.mem_cons_self a s))
      by_cases hab : a = b
      · subst hab
        have he : scmp (a :: s) (a :: t) = scmp s t := by simp [scmp, ha]
        rw [he, ih (fun c hc => hx c (List.mem_cons_of_mem a hc))
          (fun c hc => hy c (List.mem_cons_of_mem a hc))]
        constructor
        · intro h; exact List.Lex.cons h
        · intro h
          cases h with
          | cons h => exact h
          | rel h => omega
      · have hcond : ¬ (a ≠ 0 ∧ a = b) := by tauto
        simp only [scmp, if_neg hcond]
        constructor
        · intro h
          exact List.Lex.rel (by omega)
        · intro h
          cases h with
          | cons h => exact absurd rfl hab
          | rel h => omega

theorem validToken.pos {w : List Nat} (h : validToken w) : ∀ b ∈ w, 0 < b :=
  fun b hb => (h.2 b hb).1

theorem scmp_ne_zero_of_ne {x y : List Nat} (hx : validToken x) (hy : validToken y)
    (h : x ≠ y) : scmp x y ≠ 0 :=
  fun h0 => h ((scmp_eq_zero_iff hx.pos hy.pos).mp h0)

theorem chainFind_eq_none_iff {c : Chain} {w : List Nat} :
    chainFind c w = none ↔ ∀ e ∈ c, scmp e.word w ≠ 0 := by
  induction c with
  | nil => simp [chainFind]
  | cons e rest ih =>
    by_cases h : scmp e.word w = 0
    · simp [chainFind, h]
    · simp [chainFind, h, ih]

theorem chainFind_mem {c : Chain} {w : List Nat} {e : VOCAB}
    (h : chainFind c w = some e) : e ∈ c := by
  induction c with
  | nil => simp [chainFind] at h
  | cons e0 rest ih =>
    by_cases h0 : scmp e0.word w = 0
    · simp [chainFind, h0] at h
      simp [h]
    · simp [chainFind, h0] at h
      exact List.mem_cons_of_mem e0 (ih h)

theorem chainFind_scmp {c : Chain} {w : List Nat} {e : VOCAB}
    (h : chainFind c w = some e) : scmp e.word w = 0 := by
  induction c with
  | nil => simp [chainFind] at h
  | cons e0 rest ih =>
    by_cases h0 : scmp e0.word w = 0
    · simp [chainFind, h0] at h
      rw [← h]; exact h0
    · simp [chainFind, h0] at h
      exact ih h

theorem chainInsert_of_none {c : Chain} {w : List Nat}
    (h : chainFind c w = none) : chainInsert c w = c ++ [⟨w, 1⟩] := by
  simp [chainInsert, h]

theorem chainInsert_of_some {c : Chain} {w : List Nat} {e : VOCAB}
    (h : chainFind c w = some e) :
    chainInsert c w = ⟨e.word, e.count + 1⟩ :: chainRemoveFirst c w := by
  cases c with
  | nil => simp [chainFind] at h
  | cons e0 rest =>
    by_cases h0 : scmp e0.word w = 0
    · simp [chainInsert, h, h0, chainRemoveFirst]
    · simp [chainInsert, h, h0]

theorem chainRemoveFirst_sublist (c : Chain) (w : List Nat) :
    (chainRemoveFirst c w).Sublist c := by
  induction c with
  | nil => simp [chainRemoveFirst]
  | cons e rest ih =>
    by_cases h : scmp e.word w = 0
    · simp [chainRemoveFirst, h]
    · simpa [chainRemoveFirst, h] using ih.cons₂ e

theorem sum_counts_removeFirst {c : Chain} {w : List Nat} {e : VOCAB}
    (h : chainFind c w = some e) :
    ((c.map VOCAB.count).sum) = e.count + (((chainRemoveFirst c w).map VOCAB.count).sum) := by
  induction c with
  | nil => simp [chainFind] at h
  | cons e0 rest ih =>
    by_cases h0 : scmp e0.word w = 0
    · simp [chainFind, h0] at h
      subst h
      simp [chainRemoveFirst, h0]
    · simp [chainFind, h0] at h
      simp [chainRemoveFirst, h0]
      rw [ih h]
      omega

theorem sum_counts_chainInsert (c : Chain) (w : List Nat) :
    (((chainInsert c w).map VOCAB.count).sum) = ((c.map VOCAB.count).sum) + 1 := by
  cases hf : chainFind c w with
  | none => simp [chainInsert_of_none hf]
  | some e =>
    rw [chainInsert_of_some hf]
    simp
    rw [sum_counts_removeFirst hf]
    omega

theorem chainFind_append_single {c : Chain} {w v : List Nat}
    (hw : scmp w v ≠ 0) :
    chainFind (c ++ [(⟨w, 1⟩ : VOCAB)]) v = chainFind c v := by
  induction c with
  | nil => simp [chainFind, hw]
  | cons e rest ih =>
    by_cases h : scmp e.word v = 0
    · simp [chainFind, h]
    · simp [chainFind, h, ih]

theorem chainFind_removeFirst {c : Chain} {w v : List Nat} {e : VOCAB}
    (h : chainFind c w = some e) (hv : scmp e.word v ≠ 0) :
    chainFind (chainRemoveFirst c w) v = chainFind c v := by
  induction c with
  | nil => simp [chainFind] at h
  | cons e0 rest ih =>
    by_cases h0 : scmp e0.word w = 0
    · simp [chainFind, h0] at h
      subst h
      simp [chainRemoveFirst, h0, chainFind, hv]
    · simp [chainFind, h0] at h
      by_cases hv0 : scmp e0.word v = 0
      · simp [chainRemoveFirst, h0, chainFind, hv0]
      · simp [chainRemoveFirst, h0, chainFind, hv0]
        exact ih h

theorem chainFind_chainInsert_self_none {c : Chain} {w : List Nat}
    (hf : chainFind c w = none) (hw : scmp w w = 0) :
    chainFind (chainInsert c w) w = some ⟨w, 1⟩ := by
  rw [chainInsert_of_none hf]
  induction c with
  | nil => simp [chainFind, hw]
  | cons e rest ih =>
    have hne : scmp e.word w ≠ 0 := by
      have := chainFind_eq_none_iff.mp hf
      exact this e (List.mem_cons_self e rest)
    have hf2 : chainFind rest w = none := by
      simpa [chainFind, hne] using hf
    simp [chainFind, hne]
    exact ih hf2

theorem chainFind_chainInsert_self_some {c : Chain} {w : List Nat} {e : VOCAB}
    (hf : chainFind c w = some e) :
    chainFind (chainInsert c w) w = some ⟨e.word, e.count + 1⟩ := by
  rw [chainInsert_of_some hf]
  have h0 : scmp e.word w = 0 := chainFind_scmp hf
  simp [chainFind, h0]

theorem chainFind_chainInsert_other {c : Chain} {w v : List Nat}
    (hwv : scmp w v ≠ 0)
    (hc : ∀ e, chainFind c w = some e → scmp e.word v ≠ 0) :
    chainFind (chainInsert c w) v = chainFind c v := by
  cases hf : chainFind c w with
  | none => rw [chainInsert_of_none hf, chainFind_append_single hwv]
  | some e =>
    rw [chainInsert_of_some hf]
    have he : scmp e.word v ≠ 0 := hc e hf
    have hrw : chainFind (chainRemoveFirst c w) v = chainFind c v :=
      chainFind_removeFirst hf he
    simp [chainFind, he]
    exact hrw

theorem mem_chainInsert {c : Chain} {w : List Nat} {x : VOCAB}
    (hx : x ∈ chainInsert c w) :
    x ∈ c ∨ x = ⟨w, 1⟩ ∨ ∃ e, chainFind c w = some e ∧ x = ⟨e.word, e.count + 1⟩ := by
  cases hf : chainFind c w with
  | none =>
    rw [chainInsert_of_none hf] at hx
    rcases List.mem_append.mp hx with h | h
    · exact Or.inl h
    · simp at h
      exact Or.inr (Or.inl h)
  | some e =>
    rw [chainInsert_of_some hf] at hx
    rcases List.mem_cons.mp hx with h | h
    · exact Or.inr (Or.inr ⟨e, rfl, h⟩)
    · exact Or.inl ((chainRemoveFirst_sublist c w).subset h)

theorem removeFirst_word_ne {c : Chain} {w : List Nat} {e : VOCAB}
    (hp : c.Pairwise (fun a b => a.word ≠ b.word))
    (hf : chainFind c w = some e) :
    ∀ x ∈ chainRemoveFirst c w, x.word ≠ e.word := by
  induction c with
  | nil => simp [chainFind] at hf
  | cons e0 rest ih =>
    rcases List.pairwise_cons.mp hp with ⟨h0, hrest⟩
    by_cases hm : scmp e0.word w = 0
    · simp [chainFind, hm] at hf
      subst hf
      simp [chainRemoveFirst, hm]
      intro x hx
      exact (h0 x hx).symm
    · simp [chainFind, hm] at hf
      simp [chainRemoveFirst, hm]
      constructor
      · exact h0 e (chainFind_mem hf)
      · exact ih hrest hf

theorem pairwise_chainInsert {c : Chain} {w : List Nat}
    (hp : c.Pairwise (fun a b => a.word ≠ b.word)) (hw : validToken w) :
    (chainInsert c w).Pairwise (fun a b => a.word ≠ b.word) := by
  cases hf : chainFind c w with
  | none =>
    rw [chainInsert_of_none hf]
    rw [List.pairwise_append]
    refine ⟨hp, List.pairwise_singleton _ _, ?_⟩
    intro a ha b hb
    simp at hb
    subst hb
    intro hcontra
    exact chainFind_eq_none_iff.mp hf a ha
      (by rw [hcontra]; exact scmp_self hw.pos)
  | some e =>
    rw [chainInsert_of_some hf]
    rw [List.pairwise_cons]
    constructor
    · intro x hx
      exact fun hcontra => removeFirst_word_ne hp hf x hx (hcontra.symm)
    · exact hp.sublist (chainRemoveFirst_sublist c w)

theorem hashfn_lt (w : List Nat) : hashfn w < TSIZE :=
  Nat.mod_lt _ (by decide)

theorem tableWF_inithashtable : tableWF inithashtable := by
  intro i
  constructor
  · intro e he
    simp [inithashtable] at he
  · simp [inithashtable]

theorem hashinsert_self (ht : HashTable) (w : List Nat) :
    (hashinsert ht w) (hashfn w) = chainInsert (ht (hashfn w)) w := by
  simp [hashinsert]

theorem hashinsert_other (ht : HashTable) (w : List Nat) {i : Nat}
    (h : i ≠ hashfn w) : (hashinsert ht w) i = ht i := by
  simp [hashinsert, h]

theorem tableWF_hashinsert {ht : HashTable} {w : List Nat}
    (hwf : tableWF ht) (hw : validToken w) : tableWF (hashinsert ht w) := by
  intro i
  by_cases hi : i = hashfn w
  · subst hi
    rw [hashinsert_self]
    constructor
    · intro e he
      rcases mem_chainInsert he with h | h | ⟨e0, hf, h⟩
      · exact (hwf (hashfn w)).1 e h
      · subst h
        exact ⟨hw, rfl, le_refl 1⟩
      · subst h
        rcases (hwf (hashfn w)).1 e0 (chainFind_mem hf) with ⟨hv, hh, _⟩
        refine ⟨hv, hh, ?_⟩
        show 1 ≤ e0.count + 1
        omega
    · exact pairwise_chainInsert (hwf (hashfn w)).2 hw
  · rw [hashinsert_other ht w hi]
    exact hwf i

theorem tableWF_foldl {ht : HashTable} {ts : List (List Nat)}
    (hwf : tableWF ht) (hts : ∀ t ∈ ts, validToken t) :
    tableWF (ts.foldl hashinsert ht) := by
  induction ts generalizing ht with
  | nil => exact hwf
  | cons t rest ih =>
    exact ih (tableWF_hashinsert hwf (hts t (List.mem_cons_self t rest)))
      (fun u hu => hts u (List.mem_cons_of_mem t hu))

theorem tableWF_insertAll {ts : List (List Nat)}
    (hts : ∀ t ∈ ts, validToken t) : tableWF (insertAll ts) :=
  tableWF_foldl tableWF_inithashtable hts

theorem totalCount_hashinsert (ht : HashTable) (w : List Nat) :
    totalCount (hashinsert ht w) = totalCount ht + 1 := by
  unfold totalCount
  have hmem : hashfn w ∈ Finset.range TSIZE := Finset.mem_range.mpr (hashfn_lt w)
  rw [← Finset.sum_erase_add _ _ hmem,
    ← Finset.sum_erase_add _ (fun i => ((ht i).map VOCAB.count).sum) hmem]
  have h1 : ∀ i ∈ (Finset.range TSIZE).erase (hashfn w),
      (((hashinsert ht w) i).map VOCAB.count).sum = ((ht i).map VOCAB.count).sum := by
    intro i hi
    rw [hashinsert_other ht w (Finset.ne_of_mem_erase hi)]
  rw [Finset.sum_congr rfl h1, hashinsert_self, sum_counts_chainInsert]
  omega

theorem totalCount_inithashtable : totalCount inithashtable = 0 := by
  unfold totalCount
  simp [inithashtable]

theorem totalCount_foldl (ts : List (List Nat)) (ht : HashTable) :
    totalCount (ts.foldl hashinsert ht) = totalCount ht + ts.length := by
  induction ts generalizing ht with
  | nil => simp
  | cons t rest ih =>
    rw [List.foldl_cons, ih, totalCount_hashinsert]
    simp
    omega

theorem totalCount_insertAll (ts : List (List Nat)) :
    totalCount (insertAll ts) = ts.length := by
  unfold insertAll
  rw [totalCount_foldl, totalCount_inithashtable]
  omega

theorem tableLookup_hashinsert_self {ht : HashTable} {w : List Nat}
    (hw : validToken w) :
    (tableLookup (hashinsert ht w) w).map VOCAB.count =
      some (((tableLookup ht w).map VOCAB.count).getD 0 + 1) := by
  unfold tableLookup
  rw [hashinsert_self]
  cases hf : chainFind (ht (hashfn w)) w with
  | none =>
    rw [chainFind_chainInsert_self_none hf (scmp_self hw.pos)]
    simp
  | some e =>
    rw [chainFind_chainInsert_self_some hf]
    simp

theorem tableLookup_hashinsert_other {ht : HashTable} {w v : List Nat}
    (hwf : tableWF ht) (hw : validToken w) (hv : validToken v) (hne : v ≠ w) :
    tableLookup (hashinsert ht w) v = tableLookup ht v := by
  unfold tableLookup
  by_cases hh : hashfn v = hashfn w
  · rw [hh, hashinsert_self]
    have hwv : scmp w v ≠ 0 := scmp_ne_zero_of_ne hw hv (fun h => hne h.symm)
    apply chainFind_chainInsert_other hwv
    intro e hf
    have he : validToken e.word := ((hwf (hashfn w)).1 e (chainFind_mem hf)).1
    have hew : e.word = w := (scmp_eq_zero_iff he.pos hw.pos).mp (chainFind_scmp hf)
    rw [hew]
    exact hwv
  · rw [hashinsert_other ht w hh]

theorem tableLookup_isSome_hashinsert {ht : HashTable} {w v : List Nat}
    (hwf : tableWF ht) (hw : validToken w) (hv : validToken v) :
    (tableLookup (hashinsert ht w) v).isSome = true ↔
      (tableLookup ht v).isSome = true ∨ v = w := by
  by_cases hvw : v = w
  · subst hvw
    have := @tableLookup_hashinsert_self ht v hv
    constructor
    · intro _
      exact Or.inr rfl
    · intro _
      cases hsome : tableLookup (hashinsert ht v) v with
      | none => rw [hsome] at this; simp at this
      | some e => simp
  · rw [tableLookup_hashinsert_other hwf hw hv hvw]
    simp [hvw]

theorem mem_migrate {ht : HashTable} {e : VOCAB} :
    e ∈ migrate ht ↔ ∃ i < TSIZE, e ∈ ht i := by
  simp only [migrate, List.mem_flatten, List.mem_map, List.mem_range]
  constructor
  · rintro ⟨l, ⟨i, hi, rfl⟩, hel⟩
    exact ⟨i, hi, hel⟩
  · rintro ⟨i, hi, hel⟩
    exact ⟨ht i, ⟨i, hi, rfl⟩, hel⟩

theorem migrate_pairwise {ht : HashTable} (hwf : tableWF ht) :
    (migrate ht).Pairwise (fun a b => a.word ≠ b.word) := by
  unfold migrate
  rw [List.pairwise_flatten]
  constructor
  · intro l hl
    rcases List.mem_map.mp hl with ⟨i, _, rfl⟩
    exact (hwf i).2
  · rw [List.pairwise_map]
    apply List.Pairwise.imp ?_ (List.pairwise_lt_range TSIZE)
    intro i j hij x hx y hy
    have hxi : hashfn x.word = i := ((hwf i).1 x hx).2.1
    have hyj : hashfn y.word = j := ((hwf j).1 y hy).2.1
    intro hxy
    rw [hxy, hyj] at hxi
    omega

theorem migrate_valid {ht : HashTable} (hwf : tableWF ht) :
    ∀ e ∈ migrate ht, validToken e.word ∧ 1 ≤ e.count := by
  intro e he
  rcases mem_migrate.mp he with ⟨i, _, hei⟩
  rcases (hwf i).1 e hei with ⟨hv, _, hc⟩
  exact ⟨hv, hc⟩

theorem chainFind_of_mem {c : Chain} {e : VOCAB}
    (hp : c.Pairwise (fun a b => a.word ≠ b.word))
    (hv : ∀ x ∈ c, validToken x.word) (he : e ∈ c) :
    chainFind c e.word = some e := by
  induction c with
  | nil => simp at he
  | cons e0 rest ih =>
    rcases List.pairwise_cons.mp hp with ⟨h0, hrest⟩
    rcases List.mem_cons.mp he with rfl | hmem
    · simp [chainFind, scmp_self (hv e (List.mem_cons_self e rest)).pos]
    · have hne : e0.word ≠ e.word := h0 e hmem
      have hs : scmp e0.word e.word ≠ 0 :=
        scmp_ne_zero_of_ne (hv e0 (List.mem_cons_self e0 rest))
          (hv e (List.mem_cons_of_mem e0 hmem)) hne
      simp [chainFind, hs]
      exact ih hrest (fun x hx => hv x (List.mem_cons_of_mem e0 hx)) hmem

theorem mem_migrate_iff_lookup {ht : HashTable} (hwf : tableWF ht) {e : VOCAB} :
    e ∈ migrate ht ↔ tableLookup ht e.word = some e := by
  constructor
  · intro he
    rcases mem_migrate.mp he with ⟨i, _, hei⟩
    have hhash : hashfn e.word = i := ((hwf i).1 e hei).2.1
    unfold tableLookup
    rw [hhash]
    exact chainFind_of_mem (hwf i).2 (fun x hx => ((hwf i).1 x hx).1) hei
  · intro hl
    exact mem_migrate.mpr ⟨hashfn e.word, hashfn_lt e.word, chainFind_mem hl⟩

theorem dropWhile_head_false {p : Nat → Bool} {s : List Nat} {b : Nat}
    {t : List Nat} (h : s.dropWhile p = b :: t) : p b = false := by
  induction s with
  | nil => simp at h
  | cons a rest ih =>
    by_cases hp : p a
    · rw [List.dropWhile_cons, if_pos hp] at h
      exact ih h
    · rw [List.dropWhile_cons, if_neg hp] at h
      cases h
      simpa using hp

theorem readToken_spec {s t rest : List Nat}
    (h : readToken s = some (t, rest)) :
    t ≠ [] ∧ t.Sublist s ∧ rest.Sublist s ∧ rest.length < s.length := by
  unfold readToken at h
  cases hd : s.dropWhile isWS with
  | nil => rw [hd] at h; simp at h
  | cons b s2 =>
    rw [hd] at h
    simp only [Option.some.injEq, Prod.mk.injEq] at h
    rcases h with ⟨ht, hrest⟩
    rw [ht] at hrest
    have hds : (b :: s2).Sublist s := hd ▸ List.dropWhile_sublist isWS
    have hb : isWS b = false := dropWhile_head_false hd
    have htw : (b :: s2).takeWhile (fun c => !isWS c) =
        b :: s2.takeWhile (fun c => !isWS c) := by
      rw [List.takeWhile_cons, if_pos (by simp [hb])]
    have htlen : 0 < t.length := by
      rw [← ht, htw]
      simp only [List.length_take, List.length_cons]
      have : 0 < MAX_STRING_LENGTH := by decide
      omega
    refine ⟨?_, ?_, ?_, ?_⟩
    · exact fun hnil => by simp [hnil] at htlen
    · rw [← ht]
      exact ((List.take_sublist _ _).trans (List.takeWhile_sublist _)).trans hds
    · rw [← hrest]
      exact (List.drop_sublist _ _).trans hds
    · rw [← hrest]
      have h1 : (b :: s2).length ≤ s.length := hds.length_le
      simp only [List.length_drop, List.length_cons]
      simp only [List.length_cons] at h1
      omega

theorem readToken_nil : readToken [] = none := rfl

theorem tokenizeAux_congr {fuel1 : Nat} :
    ∀ {fuel2 : Nat} {s : List Nat}, s.length ≤ fuel1 → s.length ≤ fuel2 →
    tokenizeAux fuel1 s = tokenizeAux fuel2 s := by
  induction fuel1 with
  | zero =>
    intro fuel2 s h1 _
    have : s = [] := List.eq_nil_of_length_eq_zero (by omega)
    subst this
    cases fuel2 with
    | zero => rfl
    | succ f2 => simp [tokenizeAux, readToken_nil]
  | succ f1 ih =>
    intro fuel2 s h1 h2
    cases hr : readToken s with
    | none =>
      cases fuel2 with
      | zero =>
        have : s = [] := List.eq_nil_of_length_eq_zero (by omega)
        subst this
        rfl
      | succ f2 => simp [tokenizeAux, hr]
    | some tr =>
      rcases tr with ⟨t, rest⟩
      have hs := readToken_spec hr
      cases fuel2 with
      | zero =>
        have : s = [] := List.eq_nil_of_length_eq_zero (by omega)
        subst this
        rw [readToken_nil] at hr
        cases hr
      | succ f2 =>
        simp only [tokenizeAux, hr]
        rw [@ih f2 rest (by omega) (by omega)]

theorem tokenize_cons {s t rest : List Nat} (h : readToken s = some (t, rest)) :
    tokenize s = t :: tokenize rest := by
  unfold tokenize
  have hs := readToken_spec h
  cases hl : s.length with
  | zero =>
    have : s = [] := List.eq_nil_of_length_eq_zero hl
    subst this
    rw [readToken_nil] at h
    cases h
  | succ n =>
    simp only [tokenizeAux, h]
    rw [tokenizeAux_congr (by omega) (le_refl rest.length)]

theorem tokenize_valid {s : List Nat} (hs : validInput s) :
    ∀ t ∈ tokenize s, validToken t := by
  have main : ∀ fuel s2, s2.length ≤ fuel → validInput s2 →
      ∀ t ∈ tokenizeAux fuel s2, validToken t := by
    intro fuel
    induction fuel with
    | zero => intro s2 _ _ t ht; simp [tokenizeAux] at ht
    | succ f ih =>
      intro s2 hlen hv t ht
      cases hr : readToken s2 with
      | none => simp [tokenizeAux, hr] at ht
      | some tr =>
        rcases tr with ⟨tk, rest⟩
        rcases readToken_spec hr with ⟨hne, htk, hrest, hlt⟩
        simp only [tokenizeAux, hr, List.mem_cons] at ht
        rcases ht with rfl | ht
        · exact ⟨hne, fun b hb => hv b (htk.subset hb)⟩
        · exact ih rest (by omega) (fun b hb => hv b (hrest.subset hb)) t ht
  exact main s.length s (le_refl _) hs

theorem tokenize_length_le {s : List Nat} : ∀ t ∈ tokenize s, t.length ≤ MAX_STRING_LENGTH := by
  have main : ∀ fuel s2, ∀ t ∈ tokenizeAux fuel s2, t.length ≤ MAX_STRING_LENGTH := by
    intro fuel
    induction fuel with
    | zero => intro s2 t ht; simp [tokenizeAux] at ht
    | succ f ih =>
      intro s2 t ht
      cases hr : readToken s2 with
      | none => simp [tokenizeAux, hr] at ht
      | some tr =>
        rcases tr with ⟨tk, rest⟩
        simp only [tokenizeAux, hr, List.mem_cons] at ht
        rcases ht with rfl | ht
        · unfold readToken at hr
          cases hd : s2.dropWhile isWS with
          | nil => rw [hd] at hr; cases hr
          | cons b rest2 =>
            rw [hd] at hr
            simp only [Option.some.injEq, Prod.mk.injEq] at hr
            rw [← hr.1]
            simp only [List.length_take]
            omega
        · exact ih rest t ht
  exact main s.length s

theorem readToken_all_nonws {s : List Nat} (hs : ∀ b ∈ s, isWS b = false)
    (hne : s ≠ []) :
    readToken s = some (s.take MAX_STRING_LENGTH, s.drop MAX_STRING_LENGTH) := by
  cases s with
  | nil => exact absurd rfl hne
  | cons b s2 =>
    have hb : isWS b = false := hs b (List.mem_cons_self b s2)
    have hd : (b :: s2).dropWhile isWS = b :: s2 := by
      rw [List.dropWhile_cons, if_neg (by simp [hb])]
    have htw : (b :: s2).takeWhile (fun c => !isWS c) = b :: s2 := by
      rw [List.takeWhile_eq_self_iff]
      intro x hx
      simp [hs x hx]
    unfold readToken
    rw [hd]
    simp only [htw, Option.some.injEq, Prod.mk.injEq, true_and]
    simp only [List.length_take]
    rcases Nat.le_total (b :: s2).length MAX_STRING_LENGTH with h | h
    · rw [min_eq_right h, List.drop_eq_nil_of_le (le_refl _),
        List.drop_eq_nil_of_le h]
    · rw [min_eq_left h]

theorem tokenize_nonws_aux (fuel : Nat) :
    ∀ {s : List Nat}, (∀ b ∈ s, isWS b = false) →
    tokenizeAux fuel s = chunksAux fuel s := by
  induction fuel with
  | zero => intro s _; rfl
  | succ f ih =>
    intro s hs
    cases s with
    | nil => rfl
    | cons b s2 =>
      have hr := readToken_all_nonws hs (by simp)
      simp only [tokenizeAux, hr, chunksAux]
      rw [ih fun c hc => hs c ((List.drop_sublist _ _).subset hc)]

theorem tokenize_nonws {s : List Nat} (hs : ∀ b ∈ s, isWS b = false) :
    tokenize s = chunks s :=
  tokenize_nonws_aux s.length hs

theorem chunksAux_length (fuel : Nat) :
    ∀ {s : List Nat}, s.length ≤ fuel → s ≠ [] →
    (chunksAux fuel s).length =
      (s.length + (MAX_STRING_LENGTH - 1)) / MAX_STRING_LENGTH := by
  induction fuel with
  | zero =>
    intro s hlen hne
    exact absurd (List.eq_nil_of_length_eq_zero (by omega)) hne
  | succ f ih =>
    intro s hlen hne
    cases s with
    | nil => exact absurd rfl hne
    | cons b s2 =>
      have hstep : chunksAux (f + 1) (b :: s2) =
          (b :: s2).take MAX_STRING_LENGTH
            :: chunksAux f ((b :: s2).drop MAX_STRING_LENGTH) := rfl
      rw [hstep, List.length_cons]
      by_cases hbig : (b :: s2).length ≤ MAX_STRING_LENGTH
      · have hnil : chunksAux f [] = [] := by cases f <;> rfl
        rw [List.drop_eq_nil_of_le hbig, hnil]
        simp only [List.length_nil, List.length_cons, MAX_STRING_LENGTH] at hbig ⊢
        omega
      · have hne2 : (b :: s2).drop MAX_STRING_LENGTH ≠ [] := by
          intro hcontra
          have hc := congrArg List.length hcontra
          simp only [List.length_drop, List.length_nil, List.length_cons]
            at hc hbig
          omega
        have hlen2 : ((b :: s2).drop MAX_STRING_LENGTH).length ≤ f := by
          simp only [List.length_drop, List.length_cons,
            MAX_STRING_LENGTH] at hlen ⊢
          simp only [MAX_STRING_LENGTH] at *
          omega
        rw [ih hlen2 hne2]
        simp only [List.length_drop, List.length_cons, MAX_STRING_LENGTH]
          at hbig ⊢
        omega

theorem chunks_length {s : List Nat} (hne : s ≠ []) :
    (chunks s).length = (s.length + (MAX_STRING_LENGTH - 1)) / MAX_STRING_LENGTH :=
  chunksAux_length s.length (le_refl _) hne

theorem chunks_head {s : List Nat} (hne : s ≠ []) :
    (chunks s).head? = some (s.take MAX_STRING_LENGTH) := by
  cases s with
  | nil => exact absurd rfl hne
  | cons b s2 => rfl

theorem CompareVocabTie_le_iff {a b : VOCAB} :
    CompareVocabTie a b ≤ 0 ↔
      (b.count < a.count ∨ (a.count = b.count ∧ scmp a.word b.word ≤ 0)) := by
  unfold CompareVocabTie
  by_cases h : (b.count : Int) - (a.count : Int) ≠ 0
  · rw [if_pos h]
    by_cases h2 : 0 < (b.count : Int) - (a.count : Int)
    · rw [if_pos h2]
      constructor
      · intro hc; exact absurd hc (by omega)
      · intro hc
        rcases hc with hc | ⟨hc, _⟩ <;> omega
    · rw [if_neg h2]
      constructor
      · intro _; left; omega
      · intro _; omega
  · rw [if_neg h]
    have hc : a.count = b.count := by omega
    constructor
    · intro hs; exact Or.inr ⟨hc, hs⟩
    · intro hs
      rcases hs with hs | ⟨_, hs⟩
      · omega
      · exact hs

theorem tieLE_trans (a b c : VOCAB)
    (h1 : decide (CompareVocabTie a b ≤ 0) = true)
    (h2 : decide (CompareVocabTie b c ≤ 0) = true) :
    decide (CompareVocabTie a c ≤ 0) = true := by
  rw [decide_eq_true_eq] at h1 h2 ⊢
  rw [CompareVocabTie_le_iff] at h1 h2 ⊢
  rcases h1 with h1 | ⟨h1c, h1s⟩
  · rcases h2 with h2 | ⟨h2c, _⟩
    · left; omega
    · left; omega
  · rcases h2 with h2 | ⟨h2c, h2s⟩
    · left; omega
    · exact Or.inr ⟨by omega, scmp_le_trans h1s h2s⟩

theorem tieLE_total (a b : VOCAB) :
    (decide (CompareVocabTie a b ≤ 0) || decide (CompareVocabTie b a ≤ 0)) = true := by
  rw [Bool.or_eq_true, decide_eq_true_eq, decide_eq_true_eq,
    CompareVocabTie_le_iff, CompareVocabTie_le_iff]
  by_cases h : a.count = b.count
  · by_cases hs : scmp a.word b.word ≤ 0
    · exact Or.inl (Or.inr ⟨h, hs⟩)
    · refine Or.inr (Or.inr ⟨h.symm, ?_⟩)
      rw [scmp_neg]
      omega
  · by_cases hc : b.count < a.count
    · exact Or.inl (Or.inl hc)
    · exact Or.inr (Or.inl (by omega))

theorem sortVocabTie_perm (l : List VOCAB) : (sortVocabTie l).Perm l :=
  List.mergeSort_perm l _

theorem sortVocab_perm (l : List VOCAB) : (sortVocab l).Perm l :=
  List.mergeSort_perm l _

theorem sortVocabTie_sorted (l : List VOCAB) :
    (sortVocabTie l).Pairwise (fun a b => CompareVocabTie a b ≤ 0) := by
  have h := List.sorted_mergeSort tieLE_trans tieLE_total l
  exact h.imp (fun hab => by
    rw [decide_eq_true_eq] at hab
    exact hab)

theorem word_ne_symm : ∀ {x y : VOCAB}, x.word ≠ y.word → y.word ≠ x.word :=
  fun h => h.symm

theorem rankBase_length (entries : List VOCAB) (mv : Int) :
    (rankBase entries mv).length = effectiveM mv entries.length := by
  unfold rankBase effectiveM sortVocabTie sortVocab
  by_cases h : 0 < mv ∧ mv < (entries.length : Int)
  · rw [if_pos h, if_pos h, List.length_mergeSort, List.length_take,
      List.length_mergeSort]
    rcases h with ⟨h1, h2⟩
    omega
  · rw [if_neg h, if_neg h, List.length_mergeSort]

theorem rankBase_subset (entries : List VOCAB) (mv : Int) :
    ∀ e ∈ rankBase entries mv, e ∈ entries := by
  unfold rankBase
  by_cases h : 0 < mv ∧ mv < (entries.length : Int)
  · rw [if_pos h]
    intro e he
    have h1 := (sortVocabTie_perm _).subset he
    have h2 := List.take_subset _ _ h1
    exact (sortVocab_perm entries).subset h2
  · rw [if_neg h]
    intro e he
    exact (sortVocabTie_perm _).subset he

theorem rankBase_pairwise_ne {entries : List VOCAB} (mv : Int)
    (hp : entries.Pairwise (fun a b => a.word ≠ b.word)) :
    (rankBase entries mv).Pairwise (fun a b => a.word ≠ b.word) := by
  unfold rankBase
  by_cases h : 0 < mv ∧ mv < (entries.length : Int)
  · rw [if_pos h]
    have h1 : (sortVocab entries).Pairwise (fun a b => a.word ≠ b.word) :=
      hp.perm (sortVocab_perm entries).symm word_ne_symm
    have h2 := h1.sublist (List.take_sublist mv.toNat (sortVocab entries))
    exact h2.perm (sortVocabTie_perm _).symm word_ne_symm
  · rw [if_neg h]
    exact hp.perm (sortVocabTie_perm _).symm word_ne_symm

theorem rankBase_sorted (entries : List VOCAB) (mv : Int) :
    (rankBase entries mv).Pairwise (fun a b => CompareVocabTie a b ≤ 0) := by
  unfold rankBase
  by_cases h : 0 < mv ∧ mv < (entries.length : Int)
  · rw [if_pos h]; exact sortVocabTie_sorted _
  · rw [if_neg h]; exact sortVocabTie_sorted _

theorem emitLoop_sublist (l : List VOCAB) (mc : Int) :
    (emitLoop l mc).Sublist l :=
  List.takeWhile_sublist _

theorem emitLoop_count {l : List VOCAB} {mc : Int} :
    ∀ e ∈ emitLoop l mc, mc ≤ (e.count : Int) := by
  intro e he
  have h := List.mem_takeWhile_imp he
  rw [decide_eq_true_eq] at h
  exact h

theorem emitLoop_eq_self {l : List VOCAB} {mc : Int}
    (h : ∀ e ∈ l, mc ≤ (e.count : Int)) : emitLoop l mc = l := by
  unfold emitLoop
  rw [List.takeWhile_eq_self_iff]
  intro e he
  rw [decide_eq_true_eq]
  exact h e he

theorem emitLoop_stop (l : List VOCAB) (mc : Int) :
    ∃ k, emitLoop l mc = l.take k ∧
      (l.drop k = [] ∨ ∃ e t, l.drop k = e :: t ∧ (e.count : Int) < mc) := by
  induction l with
  | nil => exact ⟨0, rfl, Or.inl rfl⟩
  | cons e rest ih =>
    by_cases h : mc ≤ (e.count : Int)
    · rcases ih with ⟨k, hk1, hk2⟩
      refine ⟨k + 1, ?_, ?_⟩
      · unfold emitLoop at hk1 ⊢
        rw [List.takeWhile_cons, if_pos (by rw [decide_eq_true_eq]; exact h),
          List.take_succ_cons, hk1]
      · simpa using hk2
    · refine ⟨0, ?_, Or.inr ⟨e, rest, rfl, by omega⟩⟩
      unfold emitLoop
      rw [List.takeWhile_cons, if_neg (by rw [decide_eq_true_eq]; exact h)]
      rfl

theorem rank_length_le (entries : List VOCAB) (mv mc : Int) :
    (rank entries mv mc).length ≤ effectiveM mv entries.length := by
  unfold rank
  calc (emitLoop (rankBase entries mv) mc).length
      ≤ (rankBase entries mv).length := (emitLoop_sublist _ _).length_le
    _ = effectiveM mv entries.length := rankBase_length entries mv

theorem effectiveM_le {mv : Int} (N : Nat) (h : 0 < mv) :
    (effectiveM mv N : Int) ≤ mv ∨ effectiveM mv N = N := by
  unfold effectiveM
  by_cases hc : 0 < mv ∧ mv < (N : Int)
  · rw [if_pos hc]; left; omega
  · rw [if_neg hc]; right; rfl

theorem rank_subset (entries : List VOCAB) (mv mc : Int) :
    ∀ e ∈ rank entries mv mc, e ∈ entries := by
  intro e he
  exact rankBase_subset entries mv e ((emitLoop_sublist _ _).subset he)

theorem rank_pairwise_strict {entries : List VOCAB} (mv mc : Int)
    (hp : entries.Pairwise (fun a b => a.word ≠ b.word))
    (hv : ∀ e ∈ entries, validToken e.word) :
    (rank entries mv mc).Pairwise (fun a b =>
      b.count < a.count ∨
        (a.count = b.count ∧ List.Lex (fun x y : Nat => x < y) a.word b.word)) := by
  have h1 := rankBase_sorted entries mv
  have h2 := rankBase_pairwise_ne mv hp
  have h3 := (h1.and h2).sublist (emitLoop_sublist (rankBase entries mv) mc)
  apply h3.imp_of_mem
  intro a b ha hb hab
  rcases hab with ⟨hle, hne⟩
  have hav : validToken a.word := hv a (rank_subset entries mv mc a ha)
  have hbv : validToken b.word := hv b (rank_subset entries mv mc b hb)
  rw [CompareVocabTie_le_iff] at hle
  rcases hle with hlt | ⟨hceq, hsle⟩
  · exact Or.inl hlt
  · refine Or.inr ⟨hceq, ?_⟩
    have hsne : scmp a.word b.word ≠ 0 := scmp_ne_zero_of_ne hav hbv hne
    rw [← scmp_lt_iff_lex hav.pos hbv.pos]
    omega

theorem specLookup_nil (w : List Nat) : specLookup [] w = none := rfl

theorem specLookup_cons_pos {e : VOCAB} {rest : List VOCAB} {w : List Nat}
    (h : e.word = w) : specLookup (e :: rest) w = some e := by
  unfold specLookup
  rw [List.find?_cons_of_pos]
  rw [decide_eq_true_eq]
  exact h

theorem specLookup_cons_neg {e : VOCAB} {rest : List VOCAB} {w : List Nat}
    (h : e.word ≠ w) : specLookup (e :: rest) w = specLookup rest w := by
  unfold specLookup
  rw [List.find?_cons_of_neg]
  simp [h]

theorem specInsert_lookup_self (l : List VOCAB) (w : List Nat) :
    (specLookup (specInsert l w) w).map VOCAB.count =
      some (((specLookup l w).map VOCAB.count).getD 0 + 1) := by
  induction l with
  | nil =>
    rw [specLookup_nil]
    show (specLookup [⟨w, 1⟩] w).map VOCAB.count = _
    rw [specLookup_cons_pos rfl]
    rfl
  | cons e rest ih =>
    by_cases h : e.word = w
    · simp only [specInsert, if_pos h]
      rw [specLookup_cons_pos h, specLookup_cons_pos
        (show (⟨e.word, e.count + 1⟩ : VOCAB).word = w from h)]
      rfl
    · simp only [specInsert, if_neg h]
      rw [specLookup_cons_neg h, specLookup_cons_neg h]
      exact ih

theorem specInsert_lookup_other {l : List VOCAB} {w v : List Nat}
    (hne : v ≠ w) : specLookup (specInsert l w) v = specLookup l v := by
  induction l with
  | nil =>
    rw [specLookup_nil]
    show specLookup [⟨w, 1⟩] v = none
    rw [specLookup_cons_neg (fun h => hne h.symm), specLookup_nil]
  | cons e rest ih =>
    by_cases h : e.word = w
    · simp only [specInsert, if_pos h]
      have hev : e.word ≠ v := fun hc => hne (hc.symm.trans h)
      rw [specLookup_cons_neg
        (show (⟨e.word, e.count + 1⟩ : VOCAB).word ≠ v from hev),
        specLookup_cons_neg hev]
    · simp only [specInsert, if_neg h]
      by_cases hv : e.word = v
      · rw [specLookup_cons_pos hv, specLookup_cons_pos hv]
      · rw [specLookup_cons_neg hv, specLookup_cons_neg hv]
        exact ih

theorem mem_specInsert {l : List VOCAB} {w : List Nat} {x : VOCAB}
    (hx : x ∈ specInsert l w) :
    x ∈ l ∨ x = ⟨w, 1⟩ ∨ ∃ e ∈ l, x = ⟨e.word, e.count + 1⟩ := by
  induction l with
  | nil =>
    simp [specInsert] at hx
    exact Or.inr (Or.inl hx)
  | cons e rest ih =>
    by_cases h : e.word = w
    · simp only [specInsert, if_pos h, List.mem_cons] at hx
      rcases hx with rfl | hx
      · exact Or.inr (Or.inr ⟨e, List.mem_cons_self e rest, rfl⟩)
      · exact Or.inl (List.mem_cons_of_mem e hx)
    · simp only [specInsert, if_neg h, List.mem_cons] at hx
      rcases hx with rfl | hx
      · exact Or.inl (List.mem_cons_self x rest)
      · rcases ih hx with h2 | h2 | ⟨e2, he2, h2⟩
        · exact Or.inl (List.mem_cons_of_mem e h2)
        · exact Or.inr (Or.inl h2)
        · exact Or.inr (Or.inr ⟨e2, List.mem_cons_of_mem e he2, h2⟩)

theorem specInsert_pairwise {l : List VOCAB} {w : List Nat}
    (hp : l.Pairwise (fun a b => a.word ≠ b.word)) :
    (specInsert l w).Pairwise (fun a b => a.word ≠ b.word) := by
  induction l with
  | nil => simp [specInsert]
  | cons e rest ih =>
    rcases List.pairwise_cons.mp hp with ⟨h0, hrest⟩
    by_cases h : e.word = w
    · simp only [specInsert, if_pos h]
      exact List.pairwise_cons.mpr ⟨h0, hrest⟩
    · simp only [specInsert, if_neg h]
      apply List.pairwise_cons.mpr
      refine ⟨?_, ih hrest⟩
      intro x hx
      rcases mem_specInsert hx with hx2 | rfl | ⟨e2, he2, rfl⟩
      · exact h0 x hx2
      · exact h
      · exact h0 e2 he2

theorem specInsert_facts {l : List VOCAB} {w : List Nat}
    (hl : ∀ e ∈ l, validToken e.word ∧ 1 ≤ e.count) (hw : validToken w) :
    ∀ e ∈ specInsert l w, validToken e.word ∧ 1 ≤ e.count := by
  intro e he
  rcases mem_specInsert he with h | rfl | ⟨e2, he2, rfl⟩
  · exact hl e h
  · exact ⟨hw, le_refl 1⟩
  · rcases hl e2 he2 with ⟨hv, _⟩
    refine ⟨hv, ?_⟩
    show 1 ≤ e2.count + 1
    omega

theorem specLookup_of_mem {l : List VOCAB} {e : VOCAB}
    (hp : l.Pairwise (fun a b => a.word ≠ b.word)) (he : e ∈ l) :
    specLookup l e.word = some e := by
  induction l with
  | nil => simp at he
  | cons e0 rest ih =>
    rcases List.pairwise_cons.mp hp with ⟨h0, hrest⟩
    rcases List.mem_cons.mp he with rfl | hmem
    · exact specLookup_cons_pos rfl
    · rw [specLookup_cons_neg (h0 e hmem)]
      exact ih hrest hmem

theorem specLookup_some {l : List VOCAB} {w : List Nat} {e : VOCAB}
    (h : specLookup l w = some e) : e ∈ l ∧ e.word = w := by
  refine ⟨List.mem_of_find?_eq_some h, ?_⟩
  have h2 := List.find?_some h
  rw [decide_eq_true_eq] at h2
  exact h2

theorem specFold_pairwise (ts : List (List Nat)) :
    ∀ {l : List VOCAB}, l.Pairwise (fun a b => a.word ≠ b.word) →
    (ts.foldl specInsert l).Pairwise (fun a b => a.word ≠ b.word) := by
  induction ts with
  | nil => intro l hp; exact hp
  | cons t rest ih =>
    intro l hp
    exact ih (specInsert_pairwise hp)

theorem specFold_facts (ts : List (List Nat)) :
    ∀ {l : List VOCAB}, (∀ t ∈ ts, validToken t) →
    (∀ e ∈ l, validToken e.word ∧ 1 ≤ e.count) →
    ∀ e ∈ ts.foldl specInsert l, validToken e.word ∧ 1 ≤ e.count := by
  induction ts with
  | nil => intro l _ hl; exact hl
  | cons t rest ih =>
    intro l hts hl
    exact ih (fun u hu => hts u (List.mem_cons_of_mem t hu))
      (specInsert_facts hl (hts t (List.mem_cons_self t rest)))

theorem counts_agree (ts : List (List Nat)) :
    ∀ {ht : HashTable} {l : List VOCAB},
    (∀ t ∈ ts, validToken t) → tableWF ht →
    l.Pairwise (fun a b => a.word ≠ b.word) →
    (∀ w, validToken w →
      (tableLookup ht w).map VOCAB.count = (specLookup l w).map VOCAB.count) →
    ∀ w, validToken w →
      (tableLookup (ts.foldl hashinsert ht) w).map VOCAB.count
        = (specLookup (ts.foldl specInsert l) w).map VOCAB.count := by
  induction ts with
  | nil => intro ht l _ _ _ hagree; exact hagree
  | cons t rest ih =>
    intro ht l hts hwf hp hagree
    simp only [List.foldl_cons]
    have htv : validToken t := hts t (List.mem_cons_self t rest)
    apply ih (fun u hu => hts u (List.mem_cons_of_mem t hu))
      (tableWF_hashinsert hwf htv) (specInsert_pairwise hp)
    intro w hwv
    by_cases hww : w = t
    · subst hww
      rw [@tableLookup_hashinsert_self ht w hwv, specInsert_lookup_self,
        hagree w hwv]
    · rw [tableLookup_hashinsert_other hwf htv hwv hww,
        specInsert_lookup_other hww]
      exact hagree w hwv

theorem migrate_perm_specCounts {ts : List (List Nat)}
    (hts : ∀ t ∈ ts, validToken t) :
    (migrate (insertAll ts)).Perm (specCounts ts) := by
  have hwf := tableWF_insertAll hts
  have hspec_p : (specCounts ts).Pairwise (fun a b => a.word ≠ b.word) :=
    specFold_pairwise ts List.Pairwise.nil
  have hspec_f : ∀ e ∈ specCounts ts, validToken e.word ∧ 1 ≤ e.count :=
    specFold_facts ts hts (by intro e he; simp at he)
  have hagree : ∀ w, validToken w →
      (tableLookup (insertAll ts) w).map VOCAB.count
        = (specLookup (specCounts ts) w).map VOCAB.count := by
    apply counts_agree ts hts tableWF_inithashtable List.Pairwise.nil
    intro w _
    rfl
  have hmem : ∀ e, e ∈ migrate (insertAll ts) ↔ e ∈ specCounts ts := by
    intro e
    constructor
    · intro he
      have hev : validToken e.word := (migrate_valid hwf e he).1
      have h1 : tableLookup (insertAll ts) e.word = some e :=
        (mem_migrate_iff_lookup hwf).mp he
      have h2 := hagree e.word hev
      rw [h1] at h2
      cases hsl : specLookup (specCounts ts) e.word with
      | none => rw [hsl] at h2; simp at h2
      | some e2 =>
        rw [hsl] at h2
        simp only [Option.map_some', Option.some.injEq] at h2
        rcases specLookup_some hsl with ⟨hmem2, hword⟩
        have he2 : e2 = e := by
          rcases e2 with ⟨w2, c2⟩
          rcases e with ⟨w1, c1⟩
          simp only [VOCAB.mk.injEq]
          exact ⟨hword, h2.symm⟩
        rw [← he2]
        exact hmem2
    · intro he
      have hev : validToken e.word := (hspec_f e he).1
      have h1 : specLookup (specCounts ts) e.word = some e :=
        specLookup_of_mem hspec_p he
      have h2 := hagree e.word hev
      rw [h1] at h2
      cases htl : tableLookup (insertAll ts) e.word with
      | none => rw [htl] at h2; simp at h2
      | some e2 =>
        rw [htl] at h2
        simp only [Option.map_some', Option.some.injEq] at h2
        have hword : e2.word = e.word := by
          have hsc := chainFind_scmp htl
          have he2m : e2 ∈ migrate (insertAll ts) :=
            mem_migrate.mpr ⟨hashfn e.word, hashfn_lt e.word, chainFind_mem htl⟩
          have he2v : validToken e2.word := (migrate_valid hwf e2 he2m).1
          exact (scmp_eq_zero_iff he2v.pos hev.pos).mp hsc
        have he2 : e2 = e := by
          rcases e2 with ⟨w2, c2⟩
          rcases e with ⟨w1, c1⟩
          simp only [VOCAB.mk.injEq]
          exact ⟨hword, h2⟩
        rw [← he2]
        exact (mem_migrate_iff_lookup hwf).mpr (he2 ▸ htl)
  have hnd1 : (migrate (insertAll ts)).Nodup :=
    (migrate_pairwise hwf).imp (fun h heq => h (congrArg VOCAB.word heq))
  have hnd2 : (specCounts ts).Nodup :=
    hspec_p.imp (fun h heq => h (congrArg VOCAB.word heq))
  apply List.perm_of_nodup_nodup_toFinset_eq hnd1 hnd2
  apply Finset.ext
  intro e
  rw [List.mem_toFinset, List.mem_toFinset]
  exact hmem e

theorem chunksAux_congr {fuel1 : Nat} :
    ∀ {fuel2 : Nat} {s : List Nat}, s.length ≤ fuel1 → s.length ≤ fuel2 →
    chunksAux fuel1 s = chunksAux fuel2 s := by
  induction fuel1 with
  | zero =>
    intro fuel2 s h1 _
    have hs : s = [] := List.eq_nil_of_length_eq_zero (by omega)
    subst hs
    cases fuel2 <;> rfl
  | succ f1 ih =>
    intro fuel2 s h1 h2
    cases s with
    | nil => cases fuel2 <;> rfl
    | cons b s2 =>
      cases fuel2 with
      | zero =>
        simp only [List.length_cons] at h2
        omega
      | succ f2 =>
        show (b :: s2).take MAX_STRING_LENGTH
            :: chunksAux f1 ((b :: s2).drop MAX_STRING_LENGTH)
          = (b :: s2).take MAX_STRING_LENGTH
            :: chunksAux f2 ((b :: s2).drop MAX_STRING_LENGTH)
        rw [@ih f2 ((b :: s2).drop MAX_STRING_LENGTH) ?_ ?_]
        · simp only [List.length_drop, List.length_cons, MAX_STRING_LENGTH]
          simp only [List.length_cons] at h1
          omega
        · simp only [List.length_drop, List.length_cons, MAX_STRING_LENGTH]
          simp only [List.length_cons] at h2
          omega

theorem chunksAux_nil (fuel : Nat) : chunksAux fuel [] = [] := by
  cases fuel <;> rfl

theorem chunks_of_le {s : List Nat} (h1 : s ≠ [])
    (h2 : s.length ≤ MAX_STRING_LENGTH) : chunks s = [s] := by
  cases s with
  | nil => exact absurd rfl h1
  | cons b s2 =>
    have hstep : chunks (b :: s2) =
        (b :: s2).take MAX_STRING_LENGTH
          :: chunksAux s2.length ((b :: s2).drop MAX_STRING_LENGTH) := rfl
    rw [hstep, List.take_of_length_le h2, List.drop_eq_nil_of_le h2,
      chunksAux_nil]

theorem chunks_of_gt {s : List Nat} (h2 : MAX_STRING_LENGTH < s.length) :
    chunks s = s.take MAX_STRING_LENGTH :: chunks (s.drop MAX_STRING_LENGTH) := by
  cases s with
  | nil => simp at h2
  | cons b s2 =>
    have hstep : chunks (b :: s2) =
        (b :: s2).take MAX_STRING_LENGTH
          :: chunksAux s2.length ((b :: s2).drop MAX_STRING_LENGTH) := rfl
    rw [hstep]
    congr 1
    apply chunksAux_congr
    · simp only [List.length_drop, List.length_cons]
      simp only [MAX_STRING_LENGTH]
      omega
    · exact le_refl _

theorem takeWhile_nonws_append {r s : List Nat}
    (hr : ∀ b ∈ r, isWS b = false) :
    (r ++ 32 :: s).takeWhile (fun c => !isWS c) = r := by
  induction r with
  | nil =>
    rw [List.nil_append, List.takeWhile_cons]
    rfl
  | cons b r2 ih =>
    rw [List.cons_append, List.takeWhile_cons,
      if_pos (by simp [hr b (List.mem_cons_self b r2)]),
      ih (fun c hc => hr c (List.mem_cons_of_mem b hc))]

theorem readToken_ws_cons (s : List Nat) : readToken (32 :: s) = readToken s := by
  unfold readToken
  rw [List.dropWhile_cons, if_pos (by rfl)]

theorem tokenize_ws_cons (s : List Nat) : tokenize (32 :: s) = tokenize s := by
  show tokenizeAux (s.length + 1) (32 :: s) = tokenizeAux s.length s
  cases hrt : readToken s with
  | none =>
    have h1 : tokenizeAux (s.length + 1) (32 :: s) = [] := by
      simp [tokenizeAux, readToken_ws_cons, hrt]
    rw [h1]
    cases hl : s.length with
    | zero => rfl
    | succ m => simp [tokenizeAux, hrt]
  | some tr =>
    rcases tr with ⟨t, rest⟩
    rcases readToken_spec hrt with ⟨-, -, -, hlt⟩
    have h1 : tokenizeAux (s.length + 1) (32 :: s) =
        t :: tokenizeAux s.length rest := by
      simp [tokenizeAux, readToken_ws_cons, hrt]
    rw [h1]
    cases hl : s.length with
    | zero => omega
    | succ m =>
      have h2 : tokenizeAux (m + 1) s = t :: tokenizeAux m rest := by
        simp [tokenizeAux, hrt]
      rw [h2]
      congr 1
      exact @tokenizeAux_congr (m + 1) m rest (by omega) (by omega)

theorem readToken_run_append {b : Nat} {r2 s : List Nat}
    (hr : ∀ c ∈ b :: r2, isWS c = false) :
    readToken ((b :: r2) ++ 32 :: s) =
      some ((b :: r2).take MAX_STRING_LENGTH,
        ((b :: r2) ++ 32 :: s).drop ((b :: r2).take MAX_STRING_LENGTH).length) := by
  have hb : isWS b = false := hr b (List.mem_cons_self b r2)
  have hdw : ((b :: r2) ++ 32 :: s).dropWhile isWS = b :: (r2 ++ 32 :: s) := by
    rw [List.cons_append, List.dropWhile_cons, if_neg (by simp [hb])]
  have htw : (b :: (r2 ++ 32 :: s)).takeWhile (fun c => !isWS c) = b :: r2 := by
    rw [← List.cons_append]
    exact takeWhile_nonws_append hr
  unfold readToken
  rw [hdw]
  simp only [htw]
  rw [List.cons_append]

theorem tokenize_run_append_aux (fuel : Nat) :
    ∀ {r : List Nat} (s : List Nat), r.length ≤ fuel →
    (∀ b ∈ r, isWS b = false) → r ≠ [] →
    tokenize (r ++ 32 :: s) = chunks r ++ tokenize (32 :: s) := by
  induction fuel with
  | zero =>
    intro r s h1 _ hne
    exact absurd (List.eq_nil_of_length_eq_zero (by omega)) hne
  | succ f ih =>
    intro r s h1 hr hne
    cases r with
    | nil => exact absurd rfl hne
    | cons b r2 =>
      have hrt := @readToken_run_append b r2 s hr
      by_cases hlen : (b :: r2).length ≤ MAX_STRING_LENGTH
      · have htake : (b :: r2).take MAX_STRING_LENGTH = b :: r2 :=
          List.take_of_length_le hlen
        rw [htake] at hrt
        have hdrop : ((b :: r2) ++ 32 :: s).drop (b :: r2).length = 32 :: s :=
          List.drop_left _ _
        rw [hdrop] at hrt
        rw [tokenize_cons hrt, chunks_of_le (by simp) hlen]
        rfl
      · push_neg at hlen
        have htl : ((b :: r2).take MAX_STRING_LENGTH).length =
            MAX_STRING_LENGTH := by
          rw [List.length_take]
          omega
        rw [htl] at hrt
        have hdrop : ((b :: r2) ++ 32 :: s).drop MAX_STRING_LENGTH =
            (b :: r2).drop MAX_STRING_LENGTH ++ 32 :: s :=
          List.drop_append_of_le_length (by omega)
        rw [hdrop] at hrt
        have hne2 : (b :: r2).drop MAX_STRING_LENGTH ≠ [] := by
          intro hc
          have := congrArg List.length hc
          simp only [List.length_drop, List.length_nil] at this
          omega
        have hlen2 : ((b :: r2).drop MAX_STRING_LENGTH).length ≤ f := by
          simp only [List.length_drop]
          simp only [List.length_cons] at h1 ⊢
          have : 0 < MAX_STRING_LENGTH := by decide
          omega
        have hnws2 : ∀ c ∈ (b :: r2).drop MAX_STRING_LENGTH, isWS c = false :=
          fun c hc => hr c ((List.drop_sublist _ _).subset hc)
        rw [tokenize_cons hrt, ih s hlen2 hnws2 hne2, chunks_of_gt hlen]
        rfl

theorem tokenize_run_append {r : List Nat} (s : List Nat)
    (hr : ∀ b ∈ r, isWS b = false) (hne : r ≠ []) :
    tokenize (r ++ 32 :: s) = chunks r ++ tokenize (32 :: s) :=
  tokenize_run_append_aux r.length s (le_refl _) hr hne

theorem effectiveM_le_of_pos {mv : Int} (N : Nat) (h : 0 < mv) :
    (effectiveM mv N : Int) ≤ mv := by
  unfold effectiveM
  by_cases hc : 0 < mv ∧ mv < (N : Int)
  · rw [if_pos hc]
    omega
  · rw [if_neg hc]
    push_neg at hc
    have := hc h
    omega

/-- C1: for every input corpus and configuration, every pair of adjacent output
records (a, b) satisfies count a > count b, or count a = count b and word a is
strictly smaller than word b in byte-wise lexicographic order. -/
theorem output_sort_invariant (input : List Nat) (mv mc : Int)
    (h : validInput input) :
    List.Chain' (fun a b =>
      b.count < a.count ∨
        (a.count = b.count ∧ List.Lex (fun x y : Nat => x < y) a.word b.word))
      (vocabOutput input mv mc) := by
  have hwf := tableWF_insertAll (tokenize_valid h)
  have hp := migrate_pairwise hwf
  have hv := migrate_valid hwf
  exact (rank_pairwise_strict mv mc hp (fun e he => (hv e he).1)).chain'

theorem output_sort_invariant_witness :
    List.Chain' (fun a b =>
      b.count < a.count ∨
        (a.count = b.count ∧ List.Lex (fun x y : Nat => x < y) a.word b.word))
      (vocabOutput [97, 32, 98, 32, 97] 0 1) :=
  output_sort_invariant [97, 32, 98, 32, 97] 0 1 (by decide)

/-- C2: the emitted record count is bounded by the effective cutoff M (at most
max_vocab whenever max_vocab is positive); max_vocab = 0 imposes no size limit;
and the condition of the no-tie-break pre-sort, 0 < max_vocab < N, holds exactly
when M < N, the pre-sorted prefix then being handed to the tie-breaking sort. -/
theorem effective_cutoff_and_presort (entries : List VOCAB) (mv mc : Int) :
    (rank entries mv mc).length ≤ effectiveM mv entries.length ∧
    (0 < mv → ((rank entries mv mc).length : Int) ≤ mv) ∧
    (mv = 0 → effectiveM mv entries.length = entries.length ∧
      rank entries mv mc = emitLoop (sortVocabTie entries) mc) ∧
    ((0 < mv ∧ mv < (entries.length : Int)) ↔
      effectiveM mv entries.length < entries.length) := by
  refine ⟨rank_length_le entries mv mc, ?_, ?_, ?_⟩
  · intro h
    have h1 := rank_length_le entries mv mc
    have h2 := effectiveM_le_of_pos entries.length h
    omega
  · intro h
    subst h
    constructor
    · unfold effectiveM
      rw [if_neg (by omega)]
    · unfold rank rankBase
      rw [if_neg (by omega)]
  · unfold effectiveM
    by_cases hc : 0 < mv ∧ mv < (entries.length : Int)
    · rw [if_pos hc]
      constructor
      · intro _
        omega
      · intro _
        exact hc
    · rw [if_neg hc]
      constructor
      · intro h
        exact absurd h hc
      · intro h
        omega

theorem effective_cutoff_and_presort_witness :
    ((rank [(⟨[97], 2⟩ : VOCAB), ⟨[98], 1⟩] 1 1).length : Int) ≤ 1 :=
  (effective_cutoff_and_presort [(⟨[97], 2⟩ : VOCAB), ⟨[98], 1⟩] 1 1).2.1
    (by decide)

/-- C3: emission walks the ranked sequence from the front and stops at the first
record with count below min_count: the output is a front segment, every emitted
record has count at least min_count, everything at or after the stop is
excluded, and when min_count is at most 1 (counts being at least 1) nothing is
excluded. -/
theorem min_count_truncation (entries : List VOCAB) (mv mc : Int) :
    (∀ e ∈ rank entries mv mc, mc ≤ (e.count : Int)) ∧
    (∃ k, rank entries mv mc = (rankBase entries mv).take k ∧
      ((rankBase entries mv).drop k = [] ∨
        ∃ e t, (rankBase entries mv).drop k = e :: t ∧ (e.count : Int) < mc)) ∧
    ((∀ e ∈ entries, 1 ≤ e.count) → mc ≤ 1 →
      rank entries mv mc = rankBase entries mv) := by
  refine ⟨fun e he => emitLoop_count e he, emitLoop_stop _ _, ?_⟩
  intro h1 hmc
  unfold rank
  apply emitLoop_eq_self
  intro e he
  have h2 := h1 e (rankBase_subset entries mv e he)
  omega

theorem min_count_truncation_witness :
    rank [(⟨[97], 1⟩ : VOCAB)] 0 1 = rankBase [(⟨[97], 1⟩ : VOCAB)] 0 :=
  (min_count_truncation [(⟨[97], 1⟩ : VOCAB)] 0 1).2.2 (by decide) (by decide)

/-- C4: each hashinsert call adds exactly 1 to the total of all counts in the
table, so after the counting phase the total equals the number of tokens read
from the input. -/
theorem counting_conservation :
    (∀ ht w, totalCount (hashinsert ht w) = totalCount ht + 1) ∧
    ∀ input : List Nat,
      totalCount (insertAll (tokenize input)) = (tokenize input).length :=
  ⟨totalCount_hashinsert, fun input => totalCount_insertAll (tokenize input)⟩

/-- C5: hashinsert preserves the table invariant, in particular that no two
records share a word, and consequently each distinct token appears at most once
in the final output. -/
theorem table_uniqueness :
    (∀ ht w, tableWF ht → validToken w → tableWF (hashinsert ht w)) ∧
    ∀ input mv mc, validInput input →
      (vocabOutput input mv mc).Pairwise (fun a b => a.word ≠ b.word) := by
  refine ⟨fun ht w hwf hw => tableWF_hashinsert hwf hw, ?_⟩
  intro input mv mc h
  have hp := migrate_pairwise (tableWF_insertAll (tokenize_valid h))
  exact (rankBase_pairwise_ne mv hp).sublist (emitLoop_sublist _ _)

theorem table_uniqueness_witness :
    (vocabOutput [97] 0 1).Pairwise (fun a b => a.word ≠ b.word) :=
  table_uniqueness.2 [97] 0 1 (by decide)

/-- C6 counterexample: at the input made of the two whitespace-separated runs
(1000 a-bytes then x) and (1000 a-bytes then y), both longer than
MAX_STRING_LENGTH and sharing the same 1000-byte head, the token reader does not
truncate: it reads four tokens (the 1000-byte head and the leftover byte of each
run), not the two identical truncated tokens the claim predicts, so the runs
neither collapse into one counted entry nor contribute one token each. -/
theorem overlength_runs_not_truncated :
    tokenize ((List.replicate 1000 97 ++ [120])
        ++ 32 :: (List.replicate 1000 97 ++ [121]))
      = [List.replicate 1000 97, [120], List.replicate 1000 97, [121]] ∧
    tokenize ((List.replicate 1000 97 ++ [120])
        ++ 32 :: (List.replicate 1000 97 ++ [121]))
      ≠ [List.replicate 1000 97, List.replicate 1000 97] := by
  have hnws1 : ∀ b ∈ List.replicate 1000 97 ++ [120], isWS b = false := by
    intro b hb
    rcases List.mem_append.mp hb with h | h
    · rw [List.eq_of_mem_replicate h]
      rfl
    · simp only [List.mem_singleton] at h
      subst h
      rfl
  have hnws2 : ∀ b ∈ List.replicate 1000 97 ++ [121], isWS b = false := by
    intro b hb
    rcases List.mem_append.mp hb with h | h
    · rw [List.eq_of_mem_replicate h]
      rfl
    · simp only [List.mem_singleton] at h
      subst h
      rfl
  have hne1 : List.replicate 1000 97 ++ [120] ≠ [] := by
    intro h
    have h2 := congrArg List.length h
    rw [List.length_append, List.length_replicate] at h2
    exact absurd h2 (by decide)
  have hchunks : ∀ z : Nat, chunks (List.replicate 1000 97 ++ [z]) =
      [List.replicate 1000 97, [z]] := by
    intro z
    have hlen : (List.replicate 1000 97 ++ [z]).length = 1001 := by
      rw [List.length_append, List.length_replicate]
      rfl
    have hgt : MAX_STRING_LENGTH < (List.replicate 1000 97 ++ [z]).length := by
      rw [hlen]
      decide
    rw [chunks_of_gt hgt]
    have htake : (List.replicate 1000 97 ++ [z]).take MAX_STRING_LENGTH =
        List.replicate 1000 97 := by
      rw [List.take_append_of_le_length (by rw [List.length_replicate]; decide),
        List.take_replicate]
      have hm : MAX_STRING_LENGTH ⊓ 1000 = 1000 := by decide
      rw [hm]
    have hdrop : (List.replicate 1000 97 ++ [z]).drop MAX_STRING_LENGTH = [z] := by
      rw [List.drop_append_of_le_length (by rw [List.length_replicate]; decide),
        List.drop_replicate]
      have hz : 1000 - MAX_STRING_LENGTH = 0 := by decide
      rw [hz, List.replicate_zero, List.nil_append]
    rw [htake, hdrop,
      @chunks_of_le [z] (by simp) (show (1 : Nat) ≤ MAX_STRING_LENGTH by decide)]
  have h1 := tokenize_run_append (List.replicate 1000 97 ++ [121]) hnws1 hne1
  rw [h1, tokenize_ws_cons, tokenize_nonws hnws2, hchunks 120, hchunks 121]
  constructor
  · rfl
  · intro hc
    have h2 := congrArg List.length hc
    exact absurd h2 (by decide)

/-- C6 amended: a whitespace-delimited run of non-whitespace bytes is read as
its consecutive MAX_STRING_LENGTH-byte pieces, not truncated: a run of length L
yields the ceiling of L / MAX_STRING_LENGTH tokens, the first being its
1000-byte head (so two over-length runs sharing that head still share their
first counted entry, while the leftover pieces are read as further tokens), and
a run followed by a space and more input contributes exactly its pieces. -/
theorem overlength_split_semantics :
    (∀ r : List Nat, (∀ b ∈ r, isWS b = false) → tokenize r = chunks r) ∧
    (∀ r : List Nat, r ≠ [] →
      (chunks r).length = (r.length + (MAX_STRING_LENGTH - 1)) / MAX_STRING_LENGTH) ∧
    (∀ r : List Nat, MAX_STRING_LENGTH < r.length →
      (chunks r).head? = some (r.take MAX_STRING_LENGTH)) ∧
    (∀ r s : List Nat, (∀ b ∈ r, isWS b = false) → r ≠ [] →
      tokenize (r ++ 32 :: s) = chunks r ++ tokenize (32 :: s)) := by
  refine ⟨fun r hr => tokenize_nonws hr, fun r hne => chunks_length hne, ?_, ?_⟩
  · intro r hgt
    rw [chunks_of_gt hgt]
    rfl
  · intro r s hr hne
    exact tokenize_run_append s hr hne

theorem overlength_split_semantics_witness :
    tokenize (List.replicate 1001 97) = chunks (List.replicate 1001 97) ∧
    (chunks (List.replicate 1001 97)).length = 2 := by
  have hne : List.replicate 1001 (97 : Nat) ≠ [] := by
    intro h
    have h2 := congrArg List.length h
    rw [List.length_replicate] at h2
    exact absurd h2 (by decide)
  constructor
  · exact overlength_split_semantics.1 (List.replicate 1001 97)
      (fun b hb => by rw [List.eq_of_mem_replicate hb]; rfl)
  · have h := overlength_split_semantics.2.1 (List.replicate 1001 97) hne
    rw [h, List.length_replicate]
    rfl

/-- C7: counting through the move-to-front hash table yields, up to order, the
same multiset of records as the plain associative map without any chain
reordering: move-to-front has no effect on any final count. -/
theorem mtf_refines_plain_map (ts : List (List Nat))
    (hts : ∀ t ∈ ts, validToken t) :
    (migrate (insertAll ts)).Perm (specCounts ts) :=
  migrate_perm_specCounts hts

theorem mtf_refines_plain_map_witness :
    (migrate (insertAll [[97], [98], [97]])).Perm (specCounts [[97], [98], [97]]) :=
  mtf_refines_plain_map [[97], [98], [97]] (by decide)

/-- C8: two get_counts runs that differ only in verbosity produce the same
vocabulary records and the same output byte stream; verbosity only gates the
diagnostic messages. -/
theorem verbosity_noninterference (v1 v2 : Int) (input : List Nat)
    (mv mc : Int) :
    (getCountsRun v1 input mv mc).1 = (getCountsRun v2 input mv mc).1 ∧
    outputBytes (getCountsRun v1 input mv mc).1
      = outputBytes (getCountsRun v2 input mv mc).1 :=
  ⟨rfl, rfl⟩

/-- C9: a failure to open the diagnostic sink exits before any processing; an
unopenable corpus or output stream is however never checked by the code, and
the run reaches an access to the unopened stream, with no defined result and no
clean fatal abort. -/
theorem open_failure_behavior :
    vocab_count false true true 2 [97] 0 1 = RunOutcome.exitFailure ∧
    vocab_count true false true 2 [97] 0 1 = RunOutcome.undefinedAccess ∧
    vocab_count true true false 2 [97] 0 1 = RunOutcome.undefinedAccess :=
  ⟨rfl, rfl, rfl⟩

/-- C10: hashinsert changes only the record of the inserted word, creating it
with count 1 or incrementing its count by 1; every other word's lookup is
unchanged, and the set of stored words grows by exactly the inserted word (no
record is ever removed). -/
theorem hashinsert_frame (ht : HashTable) (w : List Nat)
    (hwf : tableWF ht) (hw : validToken w) :
    ((tableLookup (hashinsert ht w) w).map VOCAB.count
        = some (((tableLookup ht w).map VOCAB.count).getD 0 + 1)) ∧
    (∀ v, validToken v → v ≠ w →
      tableLookup (hashinsert ht w) v = tableLookup ht v) ∧
    (∀ v, validToken v →
      ((tableLookup (hashinsert ht w) v).isSome = true ↔
        (tableLookup ht v).isSome = true ∨ v = w)) := by
  refine ⟨@tableLookup_hashinsert_self ht w hw, ?_, ?_⟩
  · intro v hv hne
    exact tableLookup_hashinsert_other hwf hw hv hne
  · intro v hv
    exact tableLookup_isSome_hashinsert hwf hw hv

theorem hashinsert_frame_witness :
    (tableLookup (hashinsert inithashtable [97]) [97]).map VOCAB.count
      = some (((tableLookup inithashtable [97]).map VOCAB.count).getD 0 + 1) :=
  (hashinsert_frame inithashtable [97] tableWF_inithashtable (by decide)).1

end VocabCount
